import Mathlib

/-!
Verification of the homomorphic Battleship game (`battleship.py`).

The Python source is shallowly embedded: mutating methods become functions
returning the updated record, the global random state becomes explicit inputs
(a stream of placement attempts; the blind scalar `r` of each guess), and the
external SEAL BFV library becomes an abstract interface `CryptoModel` whose
behaviour enters theorems only through explicit contract hypotheses, as the
spec treats the library as an external collaborator with a fixed contract.
-/

set_option linter.unusedVariables false

namespace Battleship

/-- Read entry `(x, y)` of a list-of-lists grid, with default `d`
(Python `g[x][y]`; callers in the source only use in-range indices). -/
def get2 (l : List (List α)) (x y : Nat) (d : α) : α :=
  (l.getD x []).getD y d

/-- Write entry `(x, y)` of a list-of-lists grid (Python `g[x][y] = a`). -/
def set2 (l : List (List α)) (x y : Nat) (a : α) : List (List α) :=
  l.set x ((l.getD x []).set y a)

/-- Python `[[a]*n for _ in range(n)]`. -/
def mkGrid (n : Nat) (a : α) : List (List α) :=
  List.replicate n (List.replicate n a)

def BOARD_SIZE : Nat := 10

def SHIP_SIZES : List Nat := [5, 4, 3, 2, 2]

structure Board where
  size : Nat := BOARD_SIZE
  grid : List (List Nat) := mkGrid BOARD_SIZE 0
  hits : List (List Bool) := mkGrid BOARD_SIZE false
  total_ship_cells : Nat := 0
  hits_count : Nat := 0
  deriving DecidableEq, Repr

/-- `Board.register_shot`: record a shot at `(x, y)`; returns `false` and leaves
the board unchanged if already shot, else marks the cell shot, bumps
`hits_count` iff `hit`, and returns `true`. -/
def Board.register_shot (b : Board) (x y : Nat) (hit : Bool) : Bool × Board :=
  if get2 b.hits x y false then
    (false, b)
  else
    (true, { b with
              hits := set2 b.hits x y true,
              hits_count := if hit then b.hits_count + 1 else b.hits_count })

/-- `Board.all_sunk`: `hits_count >= total_ship_cells`. -/
def Board.all_sunk (b : Board) : Bool :=
  decide (b.total_ship_cells ≤ b.hits_count)

inductive Orient where
  | H
  | V
  deriving DecidableEq, Repr

/-- One sampled placement attempt: `random.choice(["H","V"])` plus the two
`random.randrange` anchor coordinates. -/
structure Attempt where
  orient : Orient
  row : Nat
  col : Nat
  deriving DecidableEq, Repr

/-- The cells a ship of the given length occupies for this attempt
(the index sets of the source's checking/stamping loops). -/
def shipCells (a : Attempt) (length : Nat) : List (Nat × Nat) :=
  match a.orient with
  | Orient.H => (List.range length).map (fun i => (a.row, a.col + i))
  | Orient.V => (List.range length).map (fun i => (a.row + i, a.col))

/-- The domain of the source's random sampling: for `H`,
`row = randrange(size)` and `col = randrange(size - length + 1)`, i.e. the
whole ship fits inside the grid; symmetrically for `V`. -/
def Attempt.inRange (a : Attempt) (size length : Nat) : Bool :=
  match a.orient with
  | Orient.H => decide (a.row < size) && decide (a.col + length ≤ size)
  | Orient.V => decide (a.row + length ≤ size) && decide (a.col < size)

/-- `all(self.grid[..] == 0 for i in range(length))`. -/
def cellsFree (g : List (List Nat)) (cells : List (Nat × Nat)) : Bool :=
  cells.all (fun p => get2 g p.1 p.2 0 == 0)

/-- `for i in range(length): grid[..] = ship_id`. -/
def stampCells (g : List (List Nat)) (cells : List (Nat × Nat)) (sid : Nat) :
    List (List Nat) :=
  cells.foldl (fun acc p => set2 acc p.1 p.2 sid) g

/-- One ship's `while not placed` loop: consume sampled attempts until one is
accepted (drawn from the sampler's range, all its cells free), then stamp it.
Returns the stamped grid, the accepted attempt and the remaining randomness;
`none` when the supplied randomness runs out (the source would keep sampling). -/
def placeShipLoop (size length sid : Nat) (g : List (List Nat)) :
    List Attempt → Option (List (List Nat) × Attempt × List Attempt)
  | [] => none
  | a :: rest =>
    if a.inRange size length && cellsFree g (shipCells a length) then
      some (stampCells g (shipCells a length) sid, a, rest)
    else
      placeShipLoop size length sid g rest

/-- The `for length in SHIP_SIZES` loop of `place_ships_random`: place each
ship in turn with ship ids 1, 2, ...; also returns the accepted attempts. -/
def placeShipsLoop (size : Nat) :
    List Nat → Nat → List (List Nat) → List Attempt →
    Option (List (List Nat) × List Attempt)
  | [], _, g, _ => some (g, [])
  | length :: rest, sid, g, atts =>
    match placeShipLoop size length sid g atts with
    | none => none
    | some (g1, a, atts1) =>
      match placeShipsLoop size rest (sid + 1) g1 atts1 with
      | none => none
      | some (g2, accs) => some (g2, a :: accs)

/-- `Board.place_ships_random` with the stream of random samples explicit.
The source resets grid/hits/counters, then runs the placement loop, adding
each placed length to `total_ship_cells`; on a run that returns (i.e. every
ship got placed) the accumulated total is `SHIP_SIZES.sum`. -/
def Board.place_ships_random (b : Board) (atts : List Attempt) : Option Board :=
  match placeShipsLoop b.size SHIP_SIZES 1 (mkGrid b.size 0) atts with
  | none => none
  | some (g, _) =>
    some { b with
            grid := g,
            hits := mkGrid b.size false,
            total_ship_cells := SHIP_SIZES.sum,
            hits_count := 0 }

/-- The operations of the external SEAL BFV library used by `SealBFVCrypto`,
as an abstract interface over an opaque ciphertext type `C`: encryption of a
one-slot integer (encoding folded in), multiplication by an (encoded)
plaintext scalar, and decrypt-then-read-slot-0. The library's behaviour
enters theorems only through explicit contract hypotheses. -/
structure CryptoModel (C : Type) where
  encrypt_int : Nat → C
  multiply_plain : C → Nat → C
  decrypt_first : C → Nat

/-- `SealBFVCrypto.blind_multiply_random` with the sampled scalar
`r = random.randint(1, 100)` made explicit: multiply the ciphertext by the
plaintext `r`. -/
def CryptoModel.blind_multiply_random (M : CryptoModel C) (ciphertext : C)
    (r : Nat) : C :=
  M.multiply_plain ciphertext r

/-- The exact library contract: decrypting the blind-multiplied encryption of
`v` with scalar `r` yields `r * v` exactly. -/
def ContractExact (M : CryptoModel C) : Prop :=
  ∀ v r : Nat, M.decrypt_first (M.multiply_plain (M.encrypt_int v) r) = r * v

/-- The library contract modulo the scheme's plaintext modulus `m`:
`decrypt(multiplyByPlaintext(encrypt(v), encode(r))) == r*v (mod m)`. -/
def ContractMod (M : CryptoModel C) (m : Nat) : Prop :=
  ∀ v r : Nat, M.decrypt_first (M.multiply_plain (M.encrypt_int v) r) = r * v % m

/-- A `Player` record; the `crypto` wrapper object is factored out and passed
to the operations as the library model `M`. -/
structure Player (C : Type) where
  name : String
  board : Board
  enc_board : List (List C) := []
  points : Nat := 0

/-- `Player.encrypt_board`: encrypt the whole board cell by cell; only
`enc_board` is (re)assigned. -/
def Player.encrypt_board (M : CryptoModel C) (p : Player C) : Player C :=
  { p with
    enc_board :=
      (List.range p.board.size).map (fun r =>
        (List.range p.board.size).map (fun c =>
          M.encrypt_int (get2 p.board.grid r c 0))) }

/-- The hit bit computed inside `Server.process_guess` once the coordinate is
fresh: blind the defender's ciphertext at `(x, y)` with scalar `r`, have the
defender decrypt it, and compare slot 0 with 0. -/
def Server.guessHit [Inhabited C] (M : CryptoModel C) (defender : Player C)
    (x y r : Nat) : Bool :=
  M.decrypt_first
    (M.blind_multiply_random (get2 defender.enc_board x y default) r) != 0

/-- `Server.process_guess` with the blind scalar `r` explicit; returns the hit
bit together with the updated defender (the source mutates `defender.board`). -/
def Server.process_guess [Inhabited C] (M : CryptoModel C)
    (attacker defender : Player C) (x y r : Nat) : Bool × Player C :=
  if get2 defender.board.hits x y false then
    (false, defender)
  else
    let hit := Server.guessHit M defender x y r
    (hit, { defender with board := (defender.board.register_shot x y hit).2 })

/-- Apply a sequence of guesses (coordinate plus blind scalar) to a defender
through the arbiter protocol. -/
def applyGuesses [Inhabited C] (M : CryptoModel C) (attacker : Player C) :
    Player C → List (Nat × Nat × Nat) → Player C
  | d, [] => d
  | d, (x, y, r) :: rest =>
    applyGuesses M attacker (Server.process_guess M attacker d x y r).2 rest

/-- All coordinates of the 10x10 board, row-major. -/
def allCoords : List (Nat × Nat) :=
  (List.range BOARD_SIZE).flatMap (fun x =>
    (List.range BOARD_SIZE).map (fun y => (x, y)))

/-- Number of board cells holding a ship id (`grid[r][c] != 0`). -/
def countNonzero (g : List (List Nat)) : Nat :=
  allCoords.countP (fun p => get2 g p.1 p.2 0 != 0)

/-- Number of board cells that are occupied by a ship and have been shot. -/
def shotShipCount (b : Board) : Nat :=
  allCoords.countP (fun p =>
    get2 b.hits p.1 p.2 false && (get2 b.grid p.1 p.2 0 != 0))

/-- A 10x10 list-of-lists shape. -/
def grid10 (l : List (List α)) : Prop :=
  l.length = BOARD_SIZE ∧ ∀ row ∈ l, row.length = BOARD_SIZE

/-- Concrete library model for witnesses: ciphertexts are the plaintext values,
multiplication is exact. Satisfies `ContractExact`. -/
def exactModel : CryptoModel Nat where
  encrypt_int := fun v => v
  multiply_plain := fun c r => r * c
  decrypt_first := fun c => c

/-- Concrete library model for witnesses: multiplication modulo `m`.
Satisfies `ContractMod · m`. -/
def natModel (m : Nat) : CryptoModel Nat where
  encrypt_int := fun v => v
  multiply_plain := fun c r => r * c % m
  decrypt_first := fun c => c

/-- Number of board cells holding the ship id `sid`. -/
def countId (g : List (List Nat)) (sid : Nat) : Nat :=
  allCoords.countP (fun p => get2 g p.1 p.2 0 == sid)

/-- Protocol-consistency of a defender state: `hits_count` counts exactly the
shot ship cells, the ship cells are at most `total_ship_cells`, the shot
overlay is a 10x10 grid, and `enc_board` holds the encryptions of the grid
(as `encrypt_board` leaves it). -/
def ProtocolInv {C : Type} [Inhabited C] (M : CryptoModel C) (d : Player C) : Prop :=
  d.board.hits_count = shotShipCount d.board
  ∧ countNonzero d.board.grid ≤ d.board.total_ship_cells
  ∧ grid10 d.board.hits
  ∧ ∀ x y, x < BOARD_SIZE → y < BOARD_SIZE →
      get2 d.enc_board x y default = M.encrypt_int (get2 d.board.grid x y 0)

/-- A shot list whose coordinates are on the board and whose blind scalars are
nonzero (`random.randint(1, 100)` never returns 0). -/
def GoodShots (shots : List (Nat × Nat × Nat)) : Prop :=
  ∀ s ∈ shots, s.1 < BOARD_SIZE ∧ s.2.1 < BOARD_SIZE ∧ 1 ≤ s.2.2

/-- A board whose cell (0, 0) has already been shot (for concrete checks). -/
def shotBoard : Board :=
  { hits := set2 (mkGrid BOARD_SIZE false) 0 0 true }

/-- A defender holding `shotBoard` (for concrete checks). -/
def shotDefender : Player Nat :=
  { name := "defender", board := shotBoard }

/-- A defender on a fresh all-water board (for concrete checks). -/
def freshDefender : Player Nat :=
  { name := "defender", board := {} }

/-- An arbitrary attacker (for concrete checks). -/
def anyAttacker : Player Nat :=
  { name := "attacker", board := {} }

/-- A deterministic stream of placement attempts: each ship horizontal,
anchored at column 0 of successive rows (for concrete checks). -/
def demoAtts : List Attempt :=
  [⟨Orient.H, 0, 0⟩, ⟨Orient.H, 1, 0⟩, ⟨Orient.H, 2, 0⟩,
   ⟨Orient.H, 3, 0⟩, ⟨Orient.H, 4, 0⟩]

/-- The board `demoAtts` produces (for concrete checks). -/
def demoBoard : Board :=
  { grid :=
      [[1, 1, 1, 1, 1, 0, 0, 0, 0, 0],
       [2, 2, 2, 2, 0, 0, 0, 0, 0, 0],
       [3, 3, 3, 0, 0, 0, 0, 0, 0, 0],
       [4, 4, 0, 0, 0, 0, 0, 0, 0, 0],
       [5, 5, 0, 0, 0, 0, 0, 0, 0, 0],
       [0, 0, 0, 0, 0, 0, 0, 0, 0, 0],
       [0, 0, 0, 0, 0, 0, 0, 0, 0, 0],
       [0, 0, 0, 0, 0, 0, 0, 0, 0, 0],
       [0, 0, 0, 0, 0, 0, 0, 0, 0, 0],
       [0, 0, 0, 0, 0, 0, 0, 0, 0, 0]],
    hits := mkGrid BOARD_SIZE false,
    total_ship_cells := 16,
    hits_count := 0 }

/-- A defender on `demoBoard` whose encrypted board is its grid under the
identity-style `exactModel` (for concrete checks). -/
def demoDefender : Player Nat :=
  { name := "defender", board := demoBoard, enc_board := demoBoard.grid }

/-! ### Grid access lemmas -/

theorem get2_eq_getElem? (l : List (List α)) (x y : Nat) (d : α) :
    get2 l x y d = ((l[x]?).getD [])[y]?.getD d := by
  simp [get2, List.getD_eq_getElem?_getD]

theorem length_set2 (l : List (List α)) (x y : Nat) (a : α) :
    (set2 l x y a).length = l.length := by
  simp [set2]

theorem get2_set2_self (l : List (List α)) (x y : Nat) (a d : α)
    (hx : x < l.length) (hy : y < (l.getD x []).length) :
    get2 (set2 l x y a) x y d = a := by
  rw [get2_eq_getElem?, set2, List.getElem?_set_self', List.getElem?_eq_getElem hx]
  simp only [Option.map_eq_map, Option.map_some', Function.const_apply, Option.getD_some]
  rw [List.getElem?_set_self', List.getElem?_eq_getElem hy]
  simp only [Option.map_eq_map, Option.map_some', Function.const_apply, Option.getD_some]

theorem get2_set2_ne (l : List (List α)) (x y x1 y1 : Nat) (a d : α)
    (h : (x1, y1) ≠ (x, y)) :
    get2 (set2 l x y a) x1 y1 d = get2 l x1 y1 d := by
  rw [get2_eq_getElem?, get2_eq_getElem?, set2]
  by_cases hx : x1 = x
  · subst hx
    have hy : y ≠ y1 := by
      intro hy
      exact h (by rw [hy])
    rw [List.getElem?_set_self']
    cases hl : l[x1]? with
    | none => simp
    | some row =>
      have hrow : l.getD x1 [] = row := by
        rw [List.getD_eq_getElem?_getD, hl]
        rfl
      simp only [Option.map_eq_map, Option.map_some', Function.const_apply,
        Option.getD_some, hrow]
      rw [List.getElem?_set_ne hy]
  · rw [List.getElem?_set_ne (fun hxx => hx hxx.symm)]

theorem get2_mkGrid (n : Nat) (a d : α) (x y : Nat) (hx : x < n) (hy : y < n) :
    get2 (mkGrid n a) x y d = a := by
  rw [get2_eq_getElem?, mkGrid, List.getElem?_replicate]
  simp [hx, hy, List.getElem?_replicate]

theorem grid10_mkGrid (a : α) : grid10 (mkGrid BOARD_SIZE a) := by
  constructor
  · simp [mkGrid]
  · intro row hrow
    rw [mkGrid] at hrow
    rw [List.eq_of_mem_replicate hrow]
    simp

theorem grid10_row_length (l : List (List α)) (h : grid10 l) (x : Nat)
    (hx : x < BOARD_SIZE) :
    (l.getD x []).length = BOARD_SIZE := by
  obtain ⟨h1, h2⟩ := h
  have hx' : x < l.length := by rw [h1]; exact hx
  rw [List.getD_eq_getElem?_getD, List.getElem?_eq_getElem hx', Option.getD_some]
  exact h2 _ (List.getElem_mem hx')

theorem grid10_set2 (l : List (List α)) (x y : Nat) (a : α) (h : grid10 l)
    (hx : x < BOARD_SIZE) :
    grid10 (set2 l x y a) := by
  obtain ⟨h1, h2⟩ := h
  refine ⟨by simp [set2, h1], ?_⟩
  intro row hrow
  rcases List.mem_or_eq_of_mem_set hrow with h3 | h3
  · exact h2 row h3
  · subst h3
    rw [List.length_set]
    exact grid10_row_length l ⟨h1, h2⟩ x hx

/-! ### Coordinate enumeration and counting lemmas -/

theorem mem_allCoords (p : Nat × Nat) :
    p ∈ allCoords ↔ p.1 < BOARD_SIZE ∧ p.2 < BOARD_SIZE := by
  cases p with
  | mk x y => simp [allCoords]

theorem nodup_allCoords : allCoords.Nodup := by decide

theorem countP_update_true (p q : α → Bool) :
    ∀ l : List α, l.Nodup → ∀ a : α, a ∈ l → p a = false → q a = true →
      (∀ b ∈ l, b ≠ a → q b = p b) → l.countP q = l.countP p + 1 := by
  intro l
  induction l with
  | nil =>
    intro _ a ha
    exact absurd ha (List.not_mem_nil a)
  | cons b t ih =>
    intro hnd a ha hpa hqa hagr
    rw [List.nodup_cons] at hnd
    rw [List.countP_cons, List.countP_cons]
    rcases List.mem_cons.mp ha with rfl | hat
    · have ht : t.countP q = t.countP p := by
        apply List.countP_congr
        intro c hc
        have hc' : c ≠ a := fun hca => hnd.1 (hca ▸ hc)
        rw [hagr c (List.mem_cons_of_mem _ hc) hc']
      rw [ht, hpa, hqa]
      simp
    · have hba : b ≠ a := fun hba => hnd.1 (hba ▸ hat)
      have hb : q b = p b := hagr b (List.mem_cons_self b t) hba
      rw [hb, ih hnd.2 a hat hpa hqa
        (fun c hc hca => hagr c (List.mem_cons_of_mem _ hc) hca)]
      omega

theorem countP_mem_eq_length [DecidableEq α] :
    ∀ (s l : List α) (q : α → Bool), l.Nodup → s.Nodup → (∀ a ∈ s, a ∈ l) →
      (∀ a ∈ l, (q a = true ↔ a ∈ s)) → l.countP q = s.length := by
  intro s
  induction s with
  | nil =>
    intro l q hl _ _ hq
    show List.countP q l = 0
    rw [List.countP_eq_zero]
    intro a ha hqa
    exact absurd ((hq a ha).mp hqa) (List.not_mem_nil a)
  | cons b t ih =>
    intro l q hl hbt hsub hq
    rw [List.nodup_cons] at hbt
    have hbl : b ∈ l := hsub b (List.mem_cons_self b t)
    have step := countP_update_true (fun a => decide (a ∈ t)) q l hl b hbl
      (by simp [hbt.1])
      ((hq b hbl).mpr (List.mem_cons_self b t))
      (fun c hc hcb => by
        show q c = decide (c ∈ t)
        have h1 : (q c = true) ↔ (decide (c ∈ t) = true) := by
          rw [hq c hc, decide_eq_true_eq, List.mem_cons]
          constructor
          · rintro (h2 | h2)
            · exact absurd h2 hcb
            · exact h2
          · exact Or.inr
        cases hqc : q c
        · cases hdc : decide (c ∈ t)
          · rfl
          · exact absurd (h1.mpr hdc) (by simp [hqc])
        · rw [h1.mp hqc])
    rw [step, ih l (fun a => decide (a ∈ t)) hl hbt.2
      (fun a ha => hsub a (List.mem_cons_of_mem _ ha))
      (fun a ha => by rw [decide_eq_true_eq])]
    rfl

theorem countP_le_iff_pointwise (p q : α → Bool) :
    ∀ l : List α, (∀ a ∈ l, p a = true → q a = true) →
      (l.countP q ≤ l.countP p ↔ ∀ a ∈ l, q a = true → p a = true) := by
  intro l
  induction l with
  | nil => simp
  | cons b t ih =>
    intro hpq
    have hpq' : ∀ a ∈ t, p a = true → q a = true :=
      fun a ha => hpq a (List.mem_cons_of_mem _ ha)
    have hmono : t.countP p ≤ t.countP q := List.countP_mono_left hpq'
    rw [List.countP_cons, List.countP_cons]
    by_cases hq : q b = true
    · by_cases hp : p b = true
      · rw [hp, hq]
        simp only [if_true]
        constructor
        · intro h a ha hqa
          rcases List.mem_cons.mp ha with rfl | hat
          · exact hp
          · exact ((ih hpq').mp (by omega)) a hat hqa
        · intro h
          have := (ih hpq').mpr
            (fun a ha hqa => h a (List.mem_cons_of_mem _ ha) hqa)
          omega
      · have hp' : p b = false := by
          cases hpb : p b
          · rfl
          · exact absurd hpb hp
        rw [hq, hp']
        refine iff_of_false (by simp; omega) ?_
        intro h
        have hb := h b (List.mem_cons_self b t) hq
        rw [hp'] at hb
        exact Bool.false_ne_true hb
    · have hq' : q b = false := by
        cases hqb : q b
        · rfl
        · exact absurd hqb hq
      have hp' : p b = false := by
        cases hpb : p b
        · rfl
        · exact absurd (hpq b (List.mem_cons_self b t) hpb) hq
      rw [hq', hp']
      simp only [Bool.false_eq_true, if_false, Nat.add_zero]
      rw [ih hpq']
      constructor
      · intro h a ha hqa
        rcases List.mem_cons.mp ha with rfl | hat
        · rw [hq'] at hqa
          exact absurd hqa (by simp)
        · exact h a hat hqa
      · intro h a ha hqa
        exact h a (List.mem_cons_of_mem _ ha) hqa

/-! ### Placement lemmas -/

theorem shipCells_length (a : Attempt) (n : Nat) : (shipCells a n).length = n := by
  cases a with
  | mk o row col => cases o <;> simp [shipCells]

theorem shipCells_nodup (a : Attempt) (n : Nat) : (shipCells a n).Nodup := by
  cases a with
  | mk o row col =>
    cases o
    · refine List.Nodup.map ?_ (List.nodup_range n)
      intro i j hij
      rw [Prod.mk.injEq] at hij
      omega
    · refine List.Nodup.map ?_ (List.nodup_range n)
      intro i j hij
      rw [Prod.mk.injEq] at hij
      omega

theorem shipCells_bounds (a : Attempt) (n : Nat)
    (h : a.inRange BOARD_SIZE n = true) :
    ∀ p ∈ shipCells a n, p.1 < BOARD_SIZE ∧ p.2 < BOARD_SIZE := by
  cases a with
  | mk o row col =>
    cases o
    · simp only [Attempt.inRange, Bool.and_eq_true, decide_eq_true_eq] at h
      intro p hp
      simp only [shipCells, List.mem_map, List.mem_range] at hp
      obtain ⟨i, hi, rfl⟩ := hp
      exact ⟨h.1, by omega⟩
    · simp only [Attempt.inRange, Bool.and_eq_true, decide_eq_true_eq] at h
      intro p hp
      simp only [shipCells, List.mem_map, List.mem_range] at hp
      obtain ⟨i, hi, rfl⟩ := hp
      exact ⟨by omega, h.2⟩

theorem stampCells_spec (sid : Nat) :
    ∀ (cells : List (Nat × Nat)) (g : List (List Nat)),
      grid10 g → cells.Nodup →
      (∀ p ∈ cells, p.1 < BOARD_SIZE ∧ p.2 < BOARD_SIZE) →
      cellsFree g cells = true →
      grid10 (stampCells g cells sid)
      ∧ ∀ x y, get2 (stampCells g cells sid) x y 0 =
          if (x, y) ∈ cells then sid else get2 g x y 0 := by
  intro cells
  induction cells with
  | nil =>
    intro g hg _ _ _
    refine ⟨hg, fun x y => ?_⟩
    simp [stampCells]
  | cons c t ih =>
    obtain ⟨c1, c2⟩ := c
    intro g hg hnd hb hfree
    rw [List.nodup_cons] at hnd
    have hc := hb (c1, c2) (List.mem_cons_self _ t)
    have hcfree : get2 g c1 c2 0 = 0 := by
      rw [cellsFree, List.all_eq_true] at hfree
      have := hfree (c1, c2) (List.mem_cons_self _ t)
      simpa using this
    have hg1 : grid10 (set2 g c1 c2 sid) := grid10_set2 g c1 c2 sid hg hc.1
    have hfree1 : cellsFree (set2 g c1 c2 sid) t = true := by
      rw [cellsFree, List.all_eq_true]
      intro p hp
      obtain ⟨p1, p2⟩ := p
      have hpc : ((p1, p2) : Nat × Nat) ≠ (c1, c2) := fun hpc => hnd.1 (hpc ▸ hp)
      rw [cellsFree, List.all_eq_true] at hfree
      have hpf := hfree (p1, p2) (List.mem_cons_of_mem _ hp)
      simpa [get2_set2_ne g c1 c2 p1 p2 sid 0 hpc] using hpf
    have hstep := ih (set2 g c1 c2 sid) hg1 hnd.2
      (fun p hp => hb p (List.mem_cons_of_mem _ hp)) hfree1
    have hfold : stampCells g ((c1, c2) :: t) sid =
        stampCells (set2 g c1 c2 sid) t sid := by
      simp [stampCells]
    refine ⟨by rw [hfold]; exact hstep.1, ?_⟩
    intro x y
    rw [hfold, hstep.2 x y]
    by_cases hmt : (x, y) ∈ t
    · rw [if_pos hmt, if_pos (List.mem_cons_of_mem _ hmt)]
    · by_cases heq : ((x, y) : Nat × Nat) = (c1, c2)
      · rw [Prod.mk.injEq] at heq
        obtain ⟨rfl, rfl⟩ := heq
        rw [if_neg hmt, if_pos (List.mem_cons_self _ t)]
        have hx' : x < g.length := by rw [hg.1]; exact hc.1
        have hy' : y < (g.getD x []).length := by
          rw [grid10_row_length g hg x hc.1]; exact hc.2
        exact get2_set2_self g x y sid 0 hx' hy'
      · have hnc : ((x, y) : Nat × Nat) ∉ (c1, c2) :: t := by
          intro hmem
          rcases List.mem_cons.mp hmem with h1 | h1
          · exact heq h1
          · exact hmt h1
        rw [if_neg hmt, if_neg hnc]
        exact get2_set2_ne g c1 c2 x y sid 0 heq

theorem stampCells_count (sid : Nat) (hsid : sid ≠ 0) :
    ∀ (cells : List (Nat × Nat)) (g : List (List Nat)),
      grid10 g → cells.Nodup →
      (∀ p ∈ cells, p.1 < BOARD_SIZE ∧ p.2 < BOARD_SIZE) →
      cellsFree g cells = true →
      countNonzero (stampCells g cells sid) = countNonzero g + cells.length := by
  intro cells
  induction cells with
  | nil =>
    intro g _ _ _ _
    simp [stampCells]
  | cons c t ih =>
    obtain ⟨c1, c2⟩ := c
    intro g hg hnd hb hfree
    rw [List.nodup_cons] at hnd
    have hc := hb (c1, c2) (List.mem_cons_self _ t)
    have hcfree : get2 g c1 c2 0 = 0 := by
      rw [cellsFree, List.all_eq_true] at hfree
      have := hfree (c1, c2) (List.mem_cons_self _ t)
      simpa using this
    have hg1 : grid10 (set2 g c1 c2 sid) := grid10_set2 g c1 c2 sid hg hc.1
    have hfree1 : cellsFree (set2 g c1 c2 sid) t = true := by
      rw [cellsFree, List.all_eq_true]
      intro p hp
      obtain ⟨p1, p2⟩ := p
      have hpc : ((p1, p2) : Nat × Nat) ≠ (c1, c2) := fun hpc => hnd.1 (hpc ▸ hp)
      rw [cellsFree, List.all_eq_true] at hfree
      have hpf := hfree (p1, p2) (List.mem_cons_of_mem _ hp)
      simpa [get2_set2_ne g c1 c2 p1 p2 sid 0 hpc] using hpf
    have hx' : c1 < g.length := by rw [hg.1]; exact hc.1
    have hy' : c2 < (g.getD c1 []).length := by
      rw [grid10_row_length g hg c1 hc.1]; exact hc.2
    have hone : countNonzero (set2 g c1 c2 sid) = countNonzero g + 1 := by
      refine countP_update_true _ _ allCoords nodup_allCoords (c1, c2)
        ((mem_allCoords (c1, c2)).mpr hc) ?_ ?_ ?_
      · rw [hcfree]
        rfl
      · rw [get2_set2_self g c1 c2 sid 0 hx' hy']
        simpa using hsid
      · intro b hbm hbne
        obtain ⟨b1, b2⟩ := b
        rw [get2_set2_ne g c1 c2 b1 b2 sid 0 hbne]
    have hfold : stampCells g ((c1, c2) :: t) sid =
        stampCells (set2 g c1 c2 sid) t sid := by
      simp [stampCells]
    rw [hfold, ih (set2 g c1 c2 sid) hg1 hnd.2
      (fun p hp => hb p (List.mem_cons_of_mem _ hp)) hfree1, hone,
      List.length_cons]
    omega

theorem placeShipLoop_spec (size length sid : Nat) (g : List (List Nat)) :
    ∀ (atts : List Attempt) (g1 : List (List Nat)) (a : Attempt)
      (atts1 : List Attempt),
      placeShipLoop size length sid g atts = some (g1, a, atts1) →
      a.inRange size length = true ∧ cellsFree g (shipCells a length) = true
      ∧ g1 = stampCells g (shipCells a length) sid := by
  intro atts
  induction atts with
  | nil =>
    intro g1 a atts1 h
    exact absurd h (by simp [placeShipLoop])
  | cons b rest ih =>
    intro g1 a atts1 h
    simp only [placeShipLoop] at h
    by_cases hb : (b.inRange size length && cellsFree g (shipCells b length)) = true
    · rw [if_pos hb] at h
      rw [Bool.and_eq_true] at hb
      injection h with h'
      rw [Prod.mk.injEq, Prod.mk.injEq] at h'
      obtain ⟨h1, h2, h3⟩ := h'
      subst h2
      subst h1
      exact ⟨hb.1, hb.2, rfl⟩
    · rw [if_neg hb] at h
      exact ih g1 a atts1 h

theorem placeShipsLoop_spec :
    ∀ (lengths : List Nat) (sid : Nat) (g : List (List Nat)) (atts : List Attempt)
      (gf : List (List Nat)) (accs : List Attempt),
      placeShipsLoop BOARD_SIZE lengths sid g atts = some (gf, accs) →
      grid10 g → 1 ≤ sid → (∀ x y, get2 g x y 0 < sid) →
      grid10 gf
      ∧ accs.length = lengths.length
      ∧ (∀ x y, get2 gf x y 0 < sid + lengths.length)
      ∧ countNonzero gf = countNonzero g + lengths.sum
      ∧ (∀ x y, get2 g x y 0 ≠ 0 → get2 gf x y 0 = get2 g x y 0)
      ∧ (∀ x y, get2 gf x y 0 = get2 g x y 0 ∨ sid ≤ get2 gf x y 0)
      ∧ (∀ k, k < lengths.length →
          (accs.getD k ⟨Orient.H, 0, 0⟩).inRange BOARD_SIZE (lengths.getD k 0) = true
          ∧ ∀ x y, (get2 gf x y 0 = sid + k ↔
              (x, y) ∈ shipCells (accs.getD k ⟨Orient.H, 0, 0⟩) (lengths.getD k 0))) := by
  intro lengths
  induction lengths with
  | nil =>
    intro sid g atts gf accs h hg hsid hlt
    simp only [placeShipsLoop] at h
    injection h with h'
    rw [Prod.mk.injEq] at h'
    obtain ⟨h1, h2⟩ := h'
    subst h1
    subst h2
    refine ⟨hg, rfl, ?_, by simp, fun x y _ => rfl, fun x y => Or.inl rfl, ?_⟩
    · intro x y
      have := hlt x y
      simpa using this
    · intro k hk
      exact absurd hk (by simp)
  | cons n rest ih =>
    intro sid g atts gf accs h hg hsid hlt
    simp only [placeShipsLoop] at h
    cases hpl : placeShipLoop BOARD_SIZE n sid g atts with
    | none =>
      rw [hpl] at h
      dsimp only at h
      exact Option.noConfusion h
    | some res =>
      obtain ⟨g1, a, atts1⟩ := res
      rw [hpl] at h
      dsimp only at h
      cases hrec : placeShipsLoop BOARD_SIZE rest (sid + 1) g1 atts1 with
      | none =>
        rw [hrec] at h
        dsimp only at h
        exact Option.noConfusion h
      | some res2 =>
        obtain ⟨g2, accs2⟩ := res2
        rw [hrec] at h
        dsimp only at h
        injection h with h'
        rw [Prod.mk.injEq] at h'
        obtain ⟨h1, h2⟩ := h'
        subst h1
        subst h2
        obtain ⟨hin, hfree, hg1eq⟩ :=
          placeShipLoop_spec BOARD_SIZE n sid g atts g1 a atts1 hpl
        have hcb := shipCells_bounds a n hin
        have hcn := shipCells_nodup a n
        have hstamp := stampCells_spec sid (shipCells a n) g hg hcn hcb hfree
        have hchar : ∀ x y, get2 g1 x y 0 =
            if (x, y) ∈ shipCells a n then sid else get2 g x y 0 := by
          rw [hg1eq]
          exact hstamp.2
        have hg1g : grid10 g1 := by
          rw [hg1eq]
          exact hstamp.1
        have hlt1 : ∀ x y, get2 g1 x y 0 < sid + 1 := by
          intro x y
          rw [hchar x y]
          by_cases hm : (x, y) ∈ shipCells a n
          · rw [if_pos hm]
            omega
          · rw [if_neg hm]
            have := hlt x y
            omega
        have hcnt1 : countNonzero g1 = countNonzero g + n := by
          rw [hg1eq, stampCells_count sid (by omega) (shipCells a n) g hg hcn hcb hfree,
            shipCells_length]
        obtain ⟨ihg, ihlen, ihlt, ihcnt, ihpres, ihnew, ihk⟩ :=
          ih (sid + 1) g1 atts1 g2 accs2 hrec hg1g (by omega) hlt1
        refine ⟨ihg, ?_, ?_, ?_, ?_, ?_, ?_⟩
        · simp [ihlen]
        · intro x y
          have := ihlt x y
          rw [List.length_cons]
          omega
        · rw [ihcnt, hcnt1, List.sum_cons]
          omega
        · intro x y hne
          have hnotm : (x, y) ∉ shipCells a n := by
            intro hm
            rw [cellsFree, List.all_eq_true] at hfree
            have := hfree (x, y) hm
            exact hne (by simpa using this)
          have h1v : get2 g1 x y 0 = get2 g x y 0 := by
            rw [hchar x y, if_neg hnotm]
          have h2v := ihpres x y (by rw [h1v]; exact hne)
          rw [h2v, h1v]
        · intro x y
          rcases ihnew x y with h2 | h2
          · rw [h2, hchar x y]
            by_cases hm : (x, y) ∈ shipCells a n
            · rw [if_pos hm]
              exact Or.inr (le_refl sid)
            · rw [if_neg hm]
              exact Or.inl rfl
          · exact Or.inr (by omega)
        · intro k hk
          cases k with
          | zero =>
            rw [List.getD_cons_zero, List.getD_cons_zero]
            refine ⟨hin, ?_⟩
            intro x y
            rw [Nat.add_zero]
            constructor
            · intro h2
              have hv1 : get2 g1 x y 0 = sid := by
                rcases ihnew x y with hh | hh
                · rw [← hh]
                  exact h2
                · rw [h2] at hh
                  omega
              rw [hchar x y] at hv1
              by_cases hm : (x, y) ∈ shipCells a n
              · exact hm
              · rw [if_neg hm] at hv1
                have := hlt x y
                omega
            · intro hm
              have hv1 : get2 g1 x y 0 = sid := by
                rw [hchar x y, if_pos hm]
              have h2v := ihpres x y (by rw [hv1]; omega)
              rw [h2v, hv1]
          | succ k2 =>
            have hk2 : k2 < rest.length := by
              rw [List.length_cons] at hk
              omega
            obtain ⟨hik1, hik2⟩ := ihk k2 hk2
            rw [List.getD_cons_succ, List.getD_cons_succ]
            refine ⟨hik1, ?_⟩
            intro x y
            have heq : sid + (k2 + 1) = sid + 1 + k2 := by omega
            rw [heq]
            exact hik2 x y

theorem get2_mkGrid_any (n x y : Nat) : get2 (mkGrid n (0 : Nat)) x y 0 = 0 := by
  rw [get2_eq_getElem?, mkGrid, List.getElem?_replicate]
  by_cases hx : x < n
  · rw [if_pos hx, Option.getD_some, List.getElem?_replicate]
    by_cases hy : y < n
    · rw [if_pos hy, Option.getD_some]
    · rw [if_neg hy]
      rfl
  · rw [if_neg hx]
    rfl

theorem countNonzero_mkGrid : countNonzero (mkGrid BOARD_SIZE 0) = 0 := by
  rw [countNonzero, List.countP_eq_zero]
  intro p _
  rw [get2_mkGrid_any]
  simp

theorem get2_mkGrid_false (n x y : Nat) :
    get2 (mkGrid n false) x y false = false := by
  rw [get2_eq_getElem?, mkGrid, List.getElem?_replicate]
  by_cases hx : x < n
  · rw [if_pos hx, Option.getD_some, List.getElem?_replicate]
    by_cases hy : y < n
    · rw [if_pos hy, Option.getD_some]
    · rw [if_neg hy]
      rfl
  · rw [if_neg hx]
    rfl

theorem shotShipCount_le_countNonzero (b : Board) :
    shotShipCount b ≤ countNonzero b.grid := by
  apply List.countP_mono_left
  intro q hq h
  rw [Bool.and_eq_true] at h
  exact h.2

theorem shotShipCount_fresh (b : Board) (h : b.hits = mkGrid BOARD_SIZE false) :
    shotShipCount b = 0 := by
  rw [shotShipCount, List.countP_eq_zero]
  intro p _
  rw [h, get2_mkGrid_false]
  simp

/-- Registering a hit on a fresh ship cell bumps the shot-ship-cell count. -/
theorem shotShip_set2_hit (b : Board) (x y : Nat)
    (hx : x < BOARD_SIZE) (hy : y < BOARD_SIZE) (hg : grid10 b.hits)
    (hf : get2 b.hits x y false = false) (hv : get2 b.grid x y 0 ≠ 0) :
    allCoords.countP (fun p => get2 (set2 b.hits x y true) p.1 p.2 false &&
      (get2 b.grid p.1 p.2 0 != 0)) = shotShipCount b + 1 := by
  have hx' : x < b.hits.length := by rw [hg.1]; exact hx
  have hy' : y < (b.hits.getD x []).length := by
    rw [grid10_row_length b.hits hg x hx]; exact hy
  refine countP_update_true _ _ allCoords nodup_allCoords (x, y)
    ((mem_allCoords (x, y)).mpr ⟨hx, hy⟩) ?_ ?_ ?_
  · rw [hf]
    rfl
  · rw [get2_set2_self b.hits x y true false hx' hy', bne_iff_ne.mpr hv]
    rfl
  · intro q hqm hqne
    obtain ⟨q1, q2⟩ := q
    rw [get2_set2_ne b.hits x y q1 q2 true false hqne]

/-- Registering a miss on a water cell leaves the shot-ship-cell count. -/
theorem shotShip_set2_miss (b : Board) (x y : Nat)
    (hv : get2 b.grid x y 0 = 0) :
    allCoords.countP (fun p => get2 (set2 b.hits x y true) p.1 p.2 false &&
      (get2 b.grid p.1 p.2 0 != 0)) = shotShipCount b := by
  apply List.countP_congr
  intro q hqm
  obtain ⟨q1, q2⟩ := q
  by_cases hq : ((q1, q2) : Nat × Nat) = (x, y)
  · rw [Prod.mk.injEq] at hq
    obtain ⟨rfl, rfl⟩ := hq
    rw [hv]
    simp
  · rw [get2_set2_ne b.hits x y q1 q2 true false hq]

/-! ### Protocol-invariant lemmas -/

theorem process_guess_preserves_inv {C : Type} [Inhabited C] (M : CryptoModel C)
    (hM : ContractExact M) (attacker d : Player C) (x y r : Nat)
    (hx : x < BOARD_SIZE) (hy : y < BOARD_SIZE) (hr : 1 ≤ r)
    (hinv : ProtocolInv M d) :
    ProtocolInv M (Server.process_guess M attacker d x y r).2
    ∧ d.board.hits_count ≤ (Server.process_guess M attacker d x y r).2.board.hits_count
    ∧ (Server.process_guess M attacker d x y r).2.board.total_ship_cells =
        d.board.total_ship_cells
    ∧ (Server.process_guess M attacker d x y r).2.board.grid = d.board.grid
    ∧ (Server.process_guess M attacker d x y r).2.enc_board = d.enc_board := by
  obtain ⟨hc, ht, hg, henc⟩ := hinv
  by_cases hsh : get2 d.board.hits x y false = true
  · have hres : Server.process_guess M attacker d x y r = (false, d) := by
      simp [Server.process_guess, hsh]
    rw [hres]
    exact ⟨⟨hc, ht, hg, henc⟩, le_refl _, rfl, rfl, rfl⟩
  · have hf : get2 d.board.hits x y false = false := by
      cases hb : get2 d.board.hits x y false
      · rfl
      · exact absurd hb hsh
    have hhit : Server.guessHit M d x y r = (get2 d.board.grid x y 0 != 0) := by
      rw [Server.guessHit, CryptoModel.blind_multiply_random, henc x y hx hy, hM]
      rcases Nat.eq_zero_or_pos (get2 d.board.grid x y 0) with hv | hv
      · rw [hv, Nat.mul_zero]
      · have h1 : r * get2 d.board.grid x y 0 ≠ 0 :=
          Nat.mul_ne_zero (by omega) (by omega)
        have h2 : get2 d.board.grid x y 0 ≠ 0 := by omega
        rw [bne_iff_ne.mpr h1, bne_iff_ne.mpr h2]
    rcases Nat.eq_zero_or_pos (get2 d.board.grid x y 0) with hv | hv
    · -- water cell: hit bit is false
      have hbit : (get2 d.board.grid x y 0 != 0) = false := by
        rw [hv]
        rfl
      have hres : (Server.process_guess M attacker d x y r).2 =
          { d with board := { d.board with hits := set2 d.board.hits x y true } } := by
        simp [Server.process_guess, Board.register_shot, hf, hhit, hbit]
      rw [hres]
      refine ⟨⟨?_, ht, grid10_set2 d.board.hits x y true hg hx, henc⟩,
        le_refl _, rfl, rfl, rfl⟩
      rw [hc]
      exact (shotShip_set2_miss d.board x y hv).symm
    · -- ship cell: hit bit is true
      have hv' : get2 d.board.grid x y 0 ≠ 0 := by omega
      have hbit : (get2 d.board.grid x y 0 != 0) = true := bne_iff_ne.mpr hv'
      have hres : (Server.process_guess M attacker d x y r).2 =
          { d with board :=
              { d.board with
                hits := set2 d.board.hits x y true,
                hits_count := d.board.hits_count + 1 } } := by
        simp [Server.process_guess, Board.register_shot, hf, hhit, hbit]
      rw [hres]
      refine ⟨⟨?_, ht, grid10_set2 d.board.hits x y true hg hx, henc⟩,
        Nat.le_succ _, rfl, rfl, rfl⟩
      rw [hc]
      exact (shotShip_set2_hit d.board x y hx hy hg hf hv').symm

theorem applyGuesses_inv {C : Type} [Inhabited C] (M : CryptoModel C)
    (hM : ContractExact M) (attacker : Player C) :
    ∀ (shots : List (Nat × Nat × Nat)) (d : Player C),
      ProtocolInv M d → GoodShots shots →
      ProtocolInv M (applyGuesses M attacker d shots)
      ∧ d.board.hits_count ≤ (applyGuesses M attacker d shots).board.hits_count
      ∧ (applyGuesses M attacker d shots).board.total_ship_cells =
          d.board.total_ship_cells := by
  intro shots
  induction shots with
  | nil =>
    intro d hinv _
    exact ⟨hinv, le_refl _, rfl⟩
  | cons s rest ih =>
    intro d hinv hgood
    obtain ⟨x, y, r⟩ := s
    have hs := hgood (x, y, r) (List.mem_cons_self _ _)
    have step := process_guess_preserves_inv M hM attacker d x y r
      hs.1 hs.2.1 hs.2.2 hinv
    have ihr := ih (Server.process_guess M attacker d x y r).2 step.1
      (fun t ht => hgood t (List.mem_cons_of_mem _ ht))
    have happ : applyGuesses M attacker d ((x, y, r) :: rest) =
        applyGuesses M attacker (Server.process_guess M attacker d x y r).2 rest := by
      rfl
    rw [happ]
    refine ⟨ihr.1, ?_, ?_⟩
    · exact le_trans step.2.1 ihr.2.1
    · rw [ihr.2.2, step.2.2.1]

/-! ### Claim theorems -/

/-! ### Claim theorems -/

/-- C3: `register_shot` on an already-shot cell returns false and changes
nothing; on a fresh in-range cell it marks exactly that cell shot, increments
`hits_count` iff `hit` is true, changes nothing else and returns true; hence a
second call at the same coordinate returns false and leaves state unchanged. -/
theorem C3_register_shot_spec (b : Board) (x y : Nat) (hit : Bool)
    (hx : x < b.hits.length) (hy : y < (b.hits.getD x []).length) :
    (get2 b.hits x y false = true → b.register_shot x y hit = (false, b))
    ∧ (get2 b.hits x y false = false →
        (b.register_shot x y hit).1 = true
        ∧ get2 (b.register_shot x y hit).2.hits x y false = true
        ∧ (∀ x1 y1, (x1, y1) ≠ (x, y) →
            get2 (b.register_shot x y hit).2.hits x1 y1 false =
              get2 b.hits x1 y1 false)
        ∧ (b.register_shot x y hit).2.hits_count =
            (if hit then b.hits_count + 1 else b.hits_count)
        ∧ (b.register_shot x y hit).2.grid = b.grid
        ∧ (b.register_shot x y hit).2.total_ship_cells = b.total_ship_cells)
    ∧ (∀ hit2 : Bool,
        ((b.register_shot x y hit).2.register_shot x y hit2).1 = false
        ∧ ((b.register_shot x y hit).2.register_shot x y hit2).2 =
            (b.register_shot x y hit).2) := by
  refine ⟨?_, ?_, ?_⟩
  · intro h
    simp [Board.register_shot, h]
  · intro h
    have hreg : b.register_shot x y hit =
        (true, { b with
                  hits := set2 b.hits x y true,
                  hits_count := if hit then b.hits_count + 1 else b.hits_count }) := by
      simp [Board.register_shot, h]
    rw [hreg]
    exact ⟨rfl, get2_set2_self b.hits x y true false hx hy,
      fun x1 y1 hne => get2_set2_ne b.hits x y x1 y1 true false hne, rfl, rfl, rfl⟩
  · intro hit2
    have hsec : ∀ br : Board, get2 br.hits x y false = true →
        (br.register_shot x y hit2).1 = false ∧ (br.register_shot x y hit2).2 = br := by
      intro br hbr
      constructor <;> simp [Board.register_shot, hbr]
    by_cases h : get2 b.hits x y false = true
    · have h1 : b.register_shot x y hit = (false, b) := by
        simp [Board.register_shot, h]
      rw [h1]
      exact hsec b h
    · have h0 : get2 b.hits x y false = false := by
        cases hb : get2 b.hits x y false
        · rfl
        · exact absurd hb h
      have hreg : b.register_shot x y hit =
          (true, { b with
                    hits := set2 b.hits x y true,
                    hits_count := if hit then b.hits_count + 1 else b.hits_count }) := by
        simp [Board.register_shot, h0]
      have hafter : get2 (b.register_shot x y hit).2.hits x y false = true := by
        rw [hreg]
        exact get2_set2_self b.hits x y true false hx hy
      exact hsec _ hafter

/-- C3 witness at a concrete fresh board and coordinate. -/
theorem C3_register_shot_spec_witness :
    0 < ({} : Board).hits.length ∧ 0 < (({} : Board).hits.getD 0 []).length
    ∧ ((get2 ({} : Board).hits 0 0 false = true →
          ({} : Board).register_shot 0 0 true = (false, {}))
       ∧ (get2 ({} : Board).hits 0 0 false = false →
          (({} : Board).register_shot 0 0 true).1 = true
          ∧ get2 (({} : Board).register_shot 0 0 true).2.hits 0 0 false = true
          ∧ (∀ x1 y1, (x1, y1) ≠ ((0 : Nat), (0 : Nat)) →
              get2 (({} : Board).register_shot 0 0 true).2.hits x1 y1 false =
                get2 ({} : Board).hits x1 y1 false)
          ∧ (({} : Board).register_shot 0 0 true).2.hits_count =
              (if true then ({} : Board).hits_count + 1 else ({} : Board).hits_count)
          ∧ (({} : Board).register_shot 0 0 true).2.grid = ({} : Board).grid
          ∧ (({} : Board).register_shot 0 0 true).2.total_ship_cells =
              ({} : Board).total_ship_cells)
       ∧ (∀ hit2 : Bool,
          ((({} : Board).register_shot 0 0 true).2.register_shot 0 0 hit2).1 = false
          ∧ ((({} : Board).register_shot 0 0 true).2.register_shot 0 0 hit2).2 =
              (({} : Board).register_shot 0 0 true).2)) :=
  ⟨by decide, by decide, C3_register_shot_spec {} 0 0 true (by decide) (by decide)⟩

/-- C5: when the target cell is already shot, `process_guess` returns false
and the untouched defender, for every library model `M` (so no encryption
operation can influence the outcome or be needed). -/
theorem C5_already_shot_is_pure_miss {C : Type} [Inhabited C] (M : CryptoModel C)
    (attacker defender : Player C) (x y r : Nat)
    (h : get2 defender.board.hits x y false = true) :
    Server.process_guess M attacker defender x y r = (false, defender) := by
  simp [Server.process_guess, h]

/-- C5 witness at a concrete already-shot coordinate. -/
theorem C5_already_shot_is_pure_miss_witness :
    get2 shotDefender.board.hits 0 0 false = true
    ∧ Server.process_guess exactModel anyAttacker shotDefender 0 0 7 =
        (false, shotDefender) :=
  ⟨by decide,
   C5_already_shot_is_pure_miss exactModel anyAttacker shotDefender 0 0 7 (by decide)⟩

/-- C9: `register_shot` decides the increment solely from its `hit` argument:
on a fresh water cell (grid value 0) passing `hit = true` still increments
`hits_count`, and such direct calls can push `hits_count` past
`total_ship_cells`. -/
theorem C9_register_shot_trusts_flag (b : Board) (x y : Nat)
    (hfresh : get2 b.hits x y false = false) (hwater : get2 b.grid x y 0 = 0) :
    (b.register_shot x y true).2.hits_count = b.hits_count + 1
    ∧ ∃ (b0 : Board) (x0 y0 : Nat),
        get2 b0.hits x0 y0 false = false ∧ get2 b0.grid x0 y0 0 = 0 ∧
        b0.hits_count = b0.total_ship_cells ∧
        (b0.register_shot x0 y0 true).2.hits_count > b0.total_ship_cells := by
  constructor
  · simp [Board.register_shot, hfresh]
  · exact ⟨{}, 0, 0, by decide, by decide, by decide, by decide⟩

/-- C9 witness at a concrete fresh water cell. -/
theorem C9_register_shot_trusts_flag_witness :
    get2 ({} : Board).hits 0 0 false = false ∧ get2 ({} : Board).grid 0 0 0 = 0
    ∧ ((({} : Board).register_shot 0 0 true).2.hits_count = ({} : Board).hits_count + 1
       ∧ ∃ (b0 : Board) (x0 y0 : Nat),
          get2 b0.hits x0 y0 false = false ∧ get2 b0.grid x0 y0 0 = 0 ∧
          b0.hits_count = b0.total_ship_cells ∧
          (b0.register_shot x0 y0 true).2.hits_count > b0.total_ship_cells) :=
  ⟨by decide, by decide, C9_register_shot_trusts_flag {} 0 0 (by decide) (by decide)⟩

/-- C10: the `register_shot` call inside `process_guess` always succeeds:
under the guard that the cell is fresh (the only path on which the call is
reached), `register_shot` returns true, and `process_guess` is exactly the
hit bit together with that successful registration. -/
theorem C10_inner_register_shot_succeeds {C : Type} [Inhabited C]
    (M : CryptoModel C) (attacker defender : Player C) (x y r : Nat)
    (h : get2 defender.board.hits x y false = false) :
    (defender.board.register_shot x y (Server.guessHit M defender x y r)).1 = true
    ∧ Server.process_guess M attacker defender x y r =
        (Server.guessHit M defender x y r,
         { defender with
            board := (defender.board.register_shot x y
              (Server.guessHit M defender x y r)).2 }) := by
  constructor
  · simp [Board.register_shot, h]
  · simp [Server.process_guess, h]

/-- C10 witness at a concrete fresh coordinate. -/
theorem C10_inner_register_shot_succeeds_witness :
    get2 freshDefender.board.hits 0 0 false = false
    ∧ ((freshDefender.board.register_shot 0 0
          (Server.guessHit exactModel freshDefender 0 0 3)).1 = true
       ∧ Server.process_guess exactModel anyAttacker freshDefender 0 0 3 =
          (Server.guessHit exactModel freshDefender 0 0 3,
           { freshDefender with
              board := (freshDefender.board.register_shot 0 0
                (Server.guessHit exactModel freshDefender 0 0 3)).2 })) :=
  ⟨by decide,
   C10_inner_register_shot_succeeds exactModel anyAttacker freshDefender 0 0 3 (by decide)⟩

/-- C2: under the library contract modulo a plaintext modulus above 500,
blinding by any scalar 1..100 and decrypting maps a cell value 0..5 to zero
exactly when the cell value is zero. -/
theorem C2_blind_decrypt_zero_iff {C : Type} (M : CryptoModel C) (m : Nat)
    (hM : ContractMod M m) (hm : 500 < m) (v r : Nat)
    (hv : v ≤ 5) (hr1 : 1 ≤ r) (hr2 : r ≤ 100) :
    M.decrypt_first (M.blind_multiply_random (M.encrypt_int v) r) = 0 ↔ v = 0 := by
  rw [CryptoModel.blind_multiply_random, hM]
  have hle : r * v ≤ 100 * 5 := Nat.mul_le_mul hr2 hv
  have hlt : r * v < m := by omega
  rw [Nat.mod_eq_of_lt hlt]
  constructor
  · intro h
    rcases Nat.mul_eq_zero.mp h with h0 | h0
    · omega
    · exact h0
  · intro h0
    rw [h0, Nat.mul_zero]

/-- C2 witness with the modulus 501, cell value 3 and blind scalar 100. -/
theorem C2_blind_decrypt_zero_iff_witness :
    ContractMod (natModel 501) 501 ∧ 500 < 501 ∧ (3 : Nat) ≤ 5
    ∧ (1 : Nat) ≤ 100 ∧ (100 : Nat) ≤ 100
    ∧ ((natModel 501).decrypt_first
        ((natModel 501).blind_multiply_random ((natModel 501).encrypt_int 3) 100) = 0
       ↔ (3 : Nat) = 0) :=
  ⟨fun v r => rfl, by decide, by decide, by decide, by decide,
   C2_blind_decrypt_zero_iff (natModel 501) 501 (fun v r => rfl) (by decide) 3 100
     (by decide) (by decide) (by decide)⟩

/-- C1: under the exact library contract, `process_guess` on a fresh in-range
coordinate returns true exactly when the defender's grid holds a ship there;
in particular any water cell yields a miss. -/
theorem C1_process_guess_hit_iff_ship {C : Type} [Inhabited C] (M : CryptoModel C)
    (hM : ContractExact M) (attacker defender : Player C) (x y r : Nat)
    (hx : x < BOARD_SIZE) (hy : y < BOARD_SIZE) (hr : 1 ≤ r)
    (hfresh : get2 defender.board.hits x y false = false)
    (henc : get2 defender.enc_board x y default =
      M.encrypt_int (get2 defender.board.grid x y 0)) :
    ((Server.process_guess M attacker defender x y r).1 = true ↔
      get2 defender.board.grid x y 0 ≠ 0)
    ∧ (get2 defender.board.grid x y 0 = 0 →
        (Server.process_guess M attacker defender x y r).1 = false) := by
  have hhit : (Server.process_guess M attacker defender x y r).1 =
      Server.guessHit M defender x y r := by
    simp [Server.process_guess, hfresh]
  rw [hhit]
  simp only [Server.guessHit, CryptoModel.blind_multiply_random]
  rw [henc, hM]
  constructor
  · rw [bne_iff_ne, Ne, Nat.mul_eq_zero]
    constructor
    · intro hne h0
      exact hne (Or.inr h0)
    · intro hne h0
      rcases h0 with h0 | h0
      · omega
      · exact hne h0
  · intro h0
    rw [h0, Nat.mul_zero]
    rfl

/-- C1 witness: a fresh all-water cell under the exact model yields a miss. -/
theorem C1_process_guess_hit_iff_ship_witness :
    ContractExact exactModel ∧ (0 : Nat) < BOARD_SIZE ∧ (1 : Nat) ≤ 3
    ∧ get2 freshDefender.board.hits 0 0 false = false
    ∧ get2 freshDefender.enc_board 0 0 default =
        exactModel.encrypt_int (get2 freshDefender.board.grid 0 0 0)
    ∧ (((Server.process_guess exactModel anyAttacker freshDefender 0 0 3).1 = true ↔
          get2 freshDefender.board.grid 0 0 0 ≠ 0)
       ∧ (get2 freshDefender.board.grid 0 0 0 = 0 →
          (Server.process_guess exactModel anyAttacker freshDefender 0 0 3).1 = false)) :=
  ⟨fun v r => rfl, by decide, by decide, by decide, by decide,
   C1_process_guess_hit_iff_ship exactModel (fun v r => rfl) anyAttacker freshDefender
     0 0 3 (by decide) (by decide) (by decide) (by decide) (by decide)⟩

/-- C8: `encrypt_board` leaves the plaintext board (and every other field of
the player except `enc_board`) unchanged, and fills `enc_board` with a
size-by-size grid whose `(r, c)` entry is the encryption of `grid[r][c]`. -/
theorem C8_encrypt_board_spec {C : Type} [Inhabited C] (M : CryptoModel C)
    (p : Player C) :
    (p.encrypt_board M).board = p.board
    ∧ (p.encrypt_board M).name = p.name
    ∧ (p.encrypt_board M).points = p.points
    ∧ (p.encrypt_board M).enc_board.length = p.board.size
    ∧ (∀ row ∈ (p.encrypt_board M).enc_board, row.length = p.board.size)
    ∧ (∀ x y, x < p.board.size → y < p.board.size →
        get2 (p.encrypt_board M).enc_board x y default =
          M.encrypt_int (get2 p.board.grid x y 0)) := by
  refine ⟨rfl, rfl, rfl, by simp [Player.encrypt_board], ?_, ?_⟩
  · intro row hrow
    rw [Player.encrypt_board] at hrow
    simp only [List.mem_map] at hrow
    obtain ⟨r, _, hr⟩ := hrow
    rw [← hr]
    simp
  · intro x y hx hy
    rw [get2_eq_getElem?, Player.encrypt_board]
    simp only [List.getElem?_map, List.getElem?_range hx, Option.map_some',
      Option.getD_some, List.getElem?_range hy]

/-- C8 witness at a concrete player. -/
theorem C8_encrypt_board_spec_witness :
    (freshDefender.encrypt_board exactModel).board = freshDefender.board
    ∧ (freshDefender.encrypt_board exactModel).name = freshDefender.name
    ∧ (freshDefender.encrypt_board exactModel).points = freshDefender.points
    ∧ (freshDefender.encrypt_board exactModel).enc_board.length =
        freshDefender.board.size
    ∧ (∀ row ∈ (freshDefender.encrypt_board exactModel).enc_board,
        row.length = freshDefender.board.size)
    ∧ (∀ x y, x < freshDefender.board.size → y < freshDefender.board.size →
        get2 (freshDefender.encrypt_board exactModel).enc_board x y default =
          exactModel.encrypt_int (get2 freshDefender.board.grid x y 0)) :=
  C8_encrypt_board_spec exactModel freshDefender

/-- C7: `all_sunk` is exactly `total_ship_cells <= hits_count`; and on any
board whose counters are protocol-consistent (`hits_count` counts the shot
ship cells and `total_ship_cells` counts the ship cells), `all_sunk` holds
exactly when every ship-occupied coordinate has been shot. -/
theorem C7_all_sunk_spec (b : Board) :
    (b.all_sunk = true ↔ b.total_ship_cells ≤ b.hits_count)
    ∧ (b.hits_count = shotShipCount b →
       countNonzero b.grid = b.total_ship_cells →
       (b.all_sunk = true ↔
         ∀ x y, x < BOARD_SIZE → y < BOARD_SIZE →
           get2 b.grid x y 0 ≠ 0 → get2 b.hits x y false = true)) := by
  constructor
  · simp [Board.all_sunk]
  · intro hcount htot
    rw [Board.all_sunk, decide_eq_true_eq, hcount, ← htot, countNonzero,
      shotShipCount]
    have hpt : ∀ q ∈ allCoords,
        (get2 b.hits q.1 q.2 false && (get2 b.grid q.1 q.2 0 != 0)) = true →
        (get2 b.grid q.1 q.2 0 != 0) = true := by
      intro q _ hq
      rw [Bool.and_eq_true] at hq
      exact hq.2
    rw [countP_le_iff_pointwise _ _ allCoords hpt]
    constructor
    · intro h x y hx hy hg
      have hq := h (x, y) ((mem_allCoords (x, y)).mpr ⟨hx, hy⟩)
        (by simpa [bne_iff_ne] using hg)
      rw [Bool.and_eq_true] at hq
      exact hq.1
    · intro h q hq hg
      rw [Bool.and_eq_true]
      refine ⟨?_, hg⟩
      have hm := (mem_allCoords q).mp hq
      exact h q.1 q.2 hm.1 hm.2 (by simpa [bne_iff_ne] using hg)

/-- C7 witness at a concrete board with no ships. -/
theorem C7_all_sunk_spec_witness :
    ({} : Board).hits_count = shotShipCount {}
    ∧ countNonzero ({} : Board).grid = ({} : Board).total_ship_cells
    ∧ (({} : Board).all_sunk = true ↔
        ({} : Board).total_ship_cells ≤ ({} : Board).hits_count)
    ∧ (({} : Board).all_sunk = true ↔
        ∀ x y, x < BOARD_SIZE → y < BOARD_SIZE →
          get2 ({} : Board).grid x y 0 ≠ 0 → get2 ({} : Board).hits x y false = true) :=
  ⟨by decide, by decide, (C7_all_sunk_spec {}).1,
   (C7_all_sunk_spec {}).2 (by decide) (by decide)⟩

/-- A successful placement yields a protocol-consistent defender state
whenever the encrypted board matches the grid. -/
theorem place_ships_random_inv {C : Type} [Inhabited C] (M : CryptoModel C)
    (d : Player C) (b b0 : Board) (atts : List Attempt)
    (hs : b.size = BOARD_SIZE) (hplace : b.place_ships_random atts = some b0)
    (hdb : d.board = b0)
    (henc : ∀ x y, x < BOARD_SIZE → y < BOARD_SIZE →
      get2 d.enc_board x y default = M.encrypt_int (get2 d.board.grid x y 0)) :
    ProtocolInv M d := by
  rw [Board.place_ships_random, hs] at hplace
  cases hloop : placeShipsLoop BOARD_SIZE SHIP_SIZES 1 (mkGrid BOARD_SIZE 0) atts with
  | none =>
    rw [hloop] at hplace
    exact Option.noConfusion hplace
  | some res =>
    obtain ⟨g, accs⟩ := res
    rw [hloop] at hplace
    dsimp only at hplace
    injection hplace with h'
    obtain ⟨mg, mlen, mlt, mcnt, mpres, mnew, mk⟩ :=
      placeShipsLoop_spec SHIP_SIZES 1 (mkGrid BOARD_SIZE 0) atts g accs hloop
        (grid10_mkGrid 0) (le_refl 1) (fun x y => by rw [get2_mkGrid_any]; omega)
    subst h'
    refine ⟨?_, ?_, ?_, henc⟩
    · rw [hdb]
      exact (shotShipCount_fresh _ rfl).symm
    · rw [hdb]
      show countNonzero g ≤ SHIP_SIZES.sum
      rw [mcnt, countNonzero_mkGrid]
      omega
    · rw [hdb]
      exact grid10_mkGrid false

/-- C6: a successful `place_ships_random` run yields: exactly
`total_ship_cells = sum(SHIP_SIZES) = 16` nonzero cells, each ship id 1..5
occupying exactly the cells of one in-range horizontal or vertical segment of
its own length (so ships never share a cell), and a fresh shot overlay. -/
theorem C6_place_ships_random_spec (b b0 : Board) (atts : List Attempt)
    (hs : b.size = BOARD_SIZE) (h : b.place_ships_random atts = some b0) :
    countNonzero b0.grid = b0.total_ship_cells
    ∧ b0.total_ship_cells = 16
    ∧ b0.hits = mkGrid BOARD_SIZE false
    ∧ b0.hits_count = 0
    ∧ ∃ accs : List Attempt, accs.length = 5 ∧
        ∀ k, k < 5 →
          (accs.getD k ⟨Orient.H, 0, 0⟩).inRange BOARD_SIZE (SHIP_SIZES.getD k 0) = true
          ∧ countId b0.grid (k + 1) = SHIP_SIZES.getD k 0
          ∧ ∀ x y, (get2 b0.grid x y 0 = k + 1 ↔
              (x, y) ∈ shipCells (accs.getD k ⟨Orient.H, 0, 0⟩) (SHIP_SIZES.getD k 0)) := by
  rw [Board.place_ships_random, hs] at h
  cases hloop : placeShipsLoop BOARD_SIZE SHIP_SIZES 1 (mkGrid BOARD_SIZE 0) atts with
  | none =>
    rw [hloop] at h
    exact Option.noConfusion h
  | some res =>
    obtain ⟨g, accs⟩ := res
    rw [hloop] at h
    dsimp only at h
    injection h with h'
    obtain ⟨mg, mlen, mlt, mcnt, mpres, mnew, mk⟩ :=
      placeShipsLoop_spec SHIP_SIZES 1 (mkGrid BOARD_SIZE 0) atts g accs hloop
        (grid10_mkGrid 0) (le_refl 1) (fun x y => by rw [get2_mkGrid_any]; omega)
    subst h'
    refine ⟨?_, by rfl, rfl, rfl, accs, ?_, ?_⟩
    · show countNonzero g = SHIP_SIZES.sum
      rw [mcnt, countNonzero_mkGrid]
      exact Nat.zero_add _
    · rw [mlen]
      rfl
    · intro k hk
      have hk' : k < SHIP_SIZES.length := hk
      obtain ⟨hkin, hkbi⟩ := mk k hk'
      have h1k : ∀ x y, get2 g x y 0 = k + 1 ↔
          (x, y) ∈ shipCells (accs.getD k ⟨Orient.H, 0, 0⟩) (SHIP_SIZES.getD k 0) := by
        intro x y
        have hbi := hkbi x y
        rw [Nat.add_comm 1 k] at hbi
        exact hbi
      refine ⟨hkin, ?_, h1k⟩
      have hcount := countP_mem_eq_length
        (shipCells (accs.getD k ⟨Orient.H, 0, 0⟩) (SHIP_SIZES.getD k 0)) allCoords
        (fun p => get2 g p.1 p.2 0 == k + 1)
        nodup_allCoords (shipCells_nodup _ _)
        (fun p hp => (mem_allCoords p).mpr (shipCells_bounds _ _ hkin p hp))
        (fun p hp => by rw [beq_iff_eq]; exact h1k p.1 p.2)
      rw [countId, hcount, shipCells_length]

/-- C6 witness: the deterministic demo placement. -/
theorem C6_place_ships_random_spec_witness :
    ({} : Board).size = BOARD_SIZE
    ∧ Board.place_ships_random {} demoAtts = some demoBoard
    ∧ (countNonzero demoBoard.grid = demoBoard.total_ship_cells
       ∧ demoBoard.total_ship_cells = 16
       ∧ demoBoard.hits = mkGrid BOARD_SIZE false
       ∧ demoBoard.hits_count = 0
       ∧ ∃ accs : List Attempt, accs.length = 5 ∧
          ∀ k, k < 5 →
            (accs.getD k ⟨Orient.H, 0, 0⟩).inRange BOARD_SIZE (SHIP_SIZES.getD k 0) = true
            ∧ countId demoBoard.grid (k + 1) = SHIP_SIZES.getD k 0
            ∧ ∀ x y, (get2 demoBoard.grid x y 0 = k + 1 ↔
                (x, y) ∈ shipCells (accs.getD k ⟨Orient.H, 0, 0⟩)
                  (SHIP_SIZES.getD k 0))) :=
  ⟨rfl, by decide, C6_place_ships_random_spec {} demoBoard demoAtts rfl (by decide)⟩

/-- C4: from a freshly placed board with matching encrypted image, along any
(split) sequence of protocol shots, hits_count is monotonically non-decreasing
and at every point bounded by total_ship_cells. -/
theorem C4_hits_count_monotone_bounded {C : Type} [Inhabited C] (M : CryptoModel C)
    (hM : ContractExact M) (attacker d : Player C)
    (b b0 : Board) (atts : List Attempt)
    (hs : b.size = BOARD_SIZE)
    (hplace : b.place_ships_random atts = some b0)
    (hdb : d.board = b0)
    (henc : ∀ x y, x < BOARD_SIZE → y < BOARD_SIZE →
      get2 d.enc_board x y default = M.encrypt_int (get2 d.board.grid x y 0))
    (shots1 shots2 : List (Nat × Nat × Nat))
    (h1 : GoodShots shots1) (h2 : GoodShots shots2) :
    d.board.hits_count ≤ (applyGuesses M attacker d shots1).board.hits_count
    ∧ (applyGuesses M attacker d shots1).board.hits_count ≤
        (applyGuesses M attacker (applyGuesses M attacker d shots1)
          shots2).board.hits_count
    ∧ (applyGuesses M attacker (applyGuesses M attacker d shots1)
        shots2).board.hits_count ≤
      (applyGuesses M attacker (applyGuesses M attacker d shots1)
        shots2).board.total_ship_cells := by
  have hinv : ProtocolInv M d :=
    place_ships_random_inv M d b b0 atts hs hplace hdb henc
  obtain ⟨i1, m1, t1⟩ := applyGuesses_inv M hM attacker shots1 d hinv h1
  obtain ⟨i2, m2, t2⟩ :=
    applyGuesses_inv M hM attacker shots2 (applyGuesses M attacker d shots1) i1 h2
  refine ⟨m1, m2, ?_⟩
  obtain ⟨fc, ftle, _, _⟩ := i2
  rw [fc]
  exact le_trans (shotShipCount_le_countNonzero _) ftle

/-- C4 witness: two concrete shots on the demo defender. -/
theorem C4_hits_count_monotone_bounded_witness :
    ContractExact exactModel
    ∧ ({} : Board).size = BOARD_SIZE
    ∧ Board.place_ships_random {} demoAtts = some demoBoard
    ∧ demoDefender.board = demoBoard
    ∧ (∀ x y, x < BOARD_SIZE → y < BOARD_SIZE →
        get2 demoDefender.enc_board x y default =
          exactModel.encrypt_int (get2 demoDefender.board.grid x y 0))
    ∧ GoodShots [(0, 0, 5)] ∧ GoodShots [(0, 1, 7)]
    ∧ (demoDefender.board.hits_count ≤
        (applyGuesses exactModel anyAttacker demoDefender [(0, 0, 5)]).board.hits_count
       ∧ (applyGuesses exactModel anyAttacker demoDefender
            [(0, 0, 5)]).board.hits_count ≤
          (applyGuesses exactModel anyAttacker
            (applyGuesses exactModel anyAttacker demoDefender [(0, 0, 5)])
            [(0, 1, 7)]).board.hits_count
       ∧ (applyGuesses exactModel anyAttacker
            (applyGuesses exactModel anyAttacker demoDefender [(0, 0, 5)])
            [(0, 1, 7)]).board.hits_count ≤
          (applyGuesses exactModel anyAttacker
            (applyGuesses exactModel anyAttacker demoDefender [(0, 0, 5)])
            [(0, 1, 7)]).board.total_ship_cells) :=
  ⟨fun v r => rfl, rfl, by decide, rfl, fun x y _ _ => rfl,
   by unfold GoodShots; decide, by unfold GoodShots; decide,
   C4_hits_count_monotone_bounded exactModel (fun v r => rfl) anyAttacker
     demoDefender {} demoBoard demoAtts rfl (by decide) rfl (fun x y _ _ => rfl)
     [(0, 0, 5)] [(0, 1, 7)] (by unfold GoodShots; decide)
     (by unfold GoodShots; decide)⟩

end Battleship
